import Mathlib

/-!
Shallow embedding of the storage-engine core of this repository
(buffer pool with LRU-K replacement, B+ tree index, multi-granularity
lock manager with deadlock detection), together with theorems settling
the claims C1 to C10 about its specification.

Machine integers of the C++ source are modelled as `Nat`/`Int`; page ids
use `Int` with `-1` as the `INVALID_PAGE_ID` sentinel.  Fallible paths
(assertion failures, null-page fetches, exhausted fuel for loops that
walk page links) are modelled with `Option`.  Each definition mirrors a
named function of the source; the file and function are given in the
doc comment.
-/

namespace BusTub

/-! ### LRU-K replacer

Model of `src/buffer/lru_k_replacer.cpp`.  `less_k_frame_` (the young
list, frames with fewer than `k` recorded accesses) keeps the newest
frame at the head (`push_front`); `cache_frame_` (the mature list) is
kept in ascending order of the k-th-back timestamp.  `INF` is the
sentinel used for fewer than `k` accesses. -/

def INF : Nat := 0x3f3f3f3f

/-- Model of `LRUKNode` (lru_k_replacer.h): access history with the newest
timestamp first, access count, evictable flag and the k-th-back timestamp. -/
structure LRUKNode where
  history : List Nat
  fid : Nat
  evictable : Bool
  cnt : Nat
  kTs : Nat
  deriving DecidableEq

/-- Model of `LRUKReplacer`: the young list (`less_k_frame_`, newest at the
head), the mature list (`cache_frame_`, ascending k-th-back timestamp), the
logical clock, the count of evictable entries and the capacity.  The
`node_store_` map of the source is recoverable from the two lists. -/
structure Replacer where
  young : List LRUKNode
  mature : List LRUKNode
  currentTs : Nat
  currSize : Nat
  replacerSize : Nat
  k : Nat
  deriving DecidableEq

def Replacer.init (numFrames kv : Nat) : Replacer :=
  { young := [], mature := [], currentTs := 0, currSize := 0,
    replacerSize := numFrames, k := kv }

/-- Scan a list for the first evictable node; return it and the list with
that node removed.  This is the loop body shared by both halves of
`LRUKReplacer::Evict`. -/
def findEvict : List LRUKNode → Option (LRUKNode × List LRUKNode)
  | [] => none
  | n :: rest =>
    if n.evictable then some (n, rest)
    else match findEvict rest with
      | some (m, rest2) => some (m, n :: rest2)
      | none => none

/-- Model of `LRUKReplacer::Evict`: scan the young list from its tail
(oldest first, hence the `reverse`), then the mature list from its head;
only evictable nodes are candidates; on success drop the node and
decrement the evictable count.  Returns the victim frame id, `none` when
no frame can be evicted. -/
def Replacer.evict (r : Replacer) : Option Nat × Replacer :=
  match findEvict r.young.reverse with
  | some (n, rest) =>
    (some n.fid, { r with young := rest.reverse, currSize := r.currSize - 1 })
  | none =>
    match findEvict r.mature with
    | some (n, rest) =>
      (some n.fid, { r with mature := rest, currSize := r.currSize - 1 })
    | none => (none, r)

def eraseByFid : List LRUKNode → Nat → List LRUKNode
  | [], _ => []
  | n :: rest, fid => if n.fid = fid then rest else n :: eraseByFid rest fid

def findByFid (l : List LRUKNode) (fid : Nat) : Option LRUKNode :=
  l.find? (fun n => n.fid == fid)

/-- Insert a node into the mature list before the first node whose
k-th-back timestamp is strictly greater (the `std::find_if` position used
by `RecordAccess`). -/
def insertByK : List LRUKNode → LRUKNode → List LRUKNode
  | [], n => [n]
  | m :: rest, n => if n.kTs < m.kTs then n :: m :: rest else m :: insertByK rest n

/-- Model of `LRUKReplacer::RecordAccess`.  A frame id above the capacity
throws (modelled `none`).  A first access creates a young node (evicting
first when the replacer is full; the source then erases the evicted node
again through a stale map entry, a no-op here).  On a re-access the count
and history grow; at exactly `k` accesses the node moves from the young to
the mature list at its k-th-back timestamp position; past `k` the oldest
timestamp is dropped and the node is repositioned in the mature list; below
`k` the young list is left in place (the reordering splice is commented out
in the source). -/
def Replacer.recordAccess (r : Replacer) (fid : Nat) : Option Replacer :=
  let ts := r.currentTs + 1
  if r.replacerSize < fid then none
  else
    match findByFid r.young fid, findByFid r.mature fid with
    | none, none =>
      let node : LRUKNode :=
        { history := [ts], fid := fid, evictable := false, cnt := 1, kTs := INF }
      let r1 :=
        if r.currSize = r.replacerSize then
          match r.evict with
          | (some eid, r2) =>
            { r2 with young := eraseByFid r2.young eid, mature := eraseByFid r2.mature eid }
          | (none, r2) => r2
        else r
      some { r1 with young := node :: r1.young, currentTs := ts }
    | some node, _ =>
      let cnt := node.cnt + 1
      let hist := ts :: node.history
      if cnt = r.k then
        let kts := hist.getLastD 0
        let node2 := { node with cnt := cnt, history := hist, kTs := kts }
        some { r with young := eraseByFid r.young fid,
                      mature := insertByK r.mature node2, currentTs := ts }
      else if r.k < cnt then
        -- only reachable when k = 1 (a splice from the wrong list in the source);
        -- modelled as a move into the mature list
        let hist2 := hist.dropLast
        let node2 := { node with cnt := cnt, history := hist2, kTs := hist2.getLastD 0 }
        some { r with young := eraseByFid r.young fid,
                      mature := insertByK (eraseByFid r.mature fid) node2, currentTs := ts }
      else
        let young2 := r.young.map fun n =>
          if n.fid = fid then { n with cnt := cnt, history := hist } else n
        some { r with young := young2, currentTs := ts }
    | none, some node =>
      let cnt := node.cnt + 1
      let hist := ts :: node.history
      let hist2 := hist.dropLast
      let node2 := { node with cnt := cnt, history := hist2, kTs := hist2.getLastD 0 }
      some { r with mature := insertByK (eraseByFid r.mature fid) node2, currentTs := ts }

/-- Model of `LRUKReplacer::SetEvictable`: frame ids above the capacity
throw; an untracked frame id dereferences a default-constructed map entry
in the source, modelled `none`; otherwise the flag is toggled and the
evictable count adjusted. -/
def Replacer.setEvictable (r : Replacer) (fid : Nat) (flag : Bool) : Option Replacer :=
  if r.replacerSize < fid then none
  else
    let setFlag := fun (l : List LRUKNode) (b : Bool) => l.map fun n =>
      if n.fid = fid then { n with evictable := b } else n
    match findByFid r.young fid, findByFid r.mature fid with
    | none, none => none
    | some node, _ =>
      if node.evictable ∧ ¬flag then
        some { r with young := setFlag r.young false, currSize := r.currSize - 1 }
      else if ¬node.evictable ∧ flag then
        some { r with young := setFlag r.young true, currSize := r.currSize + 1 }
      else some r
    | none, some node =>
      if node.evictable ∧ ¬flag then
        some { r with mature := setFlag r.mature false, currSize := r.currSize - 1 }
      else if ¬node.evictable ∧ flag then
        some { r with mature := setFlag r.mature true, currSize := r.currSize + 1 }
      else some r

/-! ### Buffer pool manager

Model of `src/buffer/buffer_pool_manager.cpp` (the variant holding the
pool latch, the one the claims cite).  Page data is abstracted to a
single `Int`; the disk is an association list from page id to data with
unwritten pages reading as `0` (the in-memory disk manager of the tests
zero-fills). -/

/-- Model of `Page`: id, pin count, dirty flag and (abstracted) data.
`new Page[n]` zero-initialises, with `INVALID_PAGE_ID` (-1) as id. -/
structure BPPage where
  pageId : Int
  pinCount : Int
  isDirty : Bool
  data : Int
  deriving DecidableEq

def BPPage.init : BPPage := { pageId := -1, pinCount := 0, isDirty := false, data := 0 }

/-- Model of `BufferPoolManager`: frame array, `page_table_`, free list,
replacer, monotonic `next_page_id_` and the disk contents. -/
structure BPM where
  poolSize : Nat
  pages : List BPPage
  pageTable : List (Int × Nat)
  freeList : List Nat
  repl : Replacer
  nextPageId : Int
  disk : List (Int × Int)
  deriving DecidableEq

def ptLookup : List (Int × Nat) → Int → Option Nat
  | [], _ => none
  | (q, f) :: rest, pid => if q = pid then some f else ptLookup rest pid

def ptErase : List (Int × Nat) → Int → List (Int × Nat)
  | [], _ => []
  | (q, f) :: rest, pid => if q = pid then rest else (q, f) :: ptErase rest pid

def diskRead (d : List (Int × Int)) (pid : Int) : Int :=
  match d with
  | [] => 0
  | (q, x) :: rest => if q = pid then x else diskRead rest pid

def diskWrite (d : List (Int × Int)) (pid x : Int) : List (Int × Int) :=
  match d with
  | [] => [(pid, x)]
  | (q, y) :: rest => if q = pid then (pid, x) :: rest else (q, y) :: diskWrite rest pid x

/-- Model of the `BufferPoolManager` constructor: empty page table, every
frame on the free list. -/
def BPM.init (poolSize replacerK : Nat) : BPM :=
  { poolSize := poolSize,
    pages := List.replicate poolSize BPPage.init,
    pageTable := [],
    freeList := List.range poolSize,
    repl := Replacer.init poolSize replacerK,
    nextPageId := 0,
    disk := [] }

/-- Model of `BufferPoolManager::FetchPage`.  Resident page: increment the
pin, mark the frame non-evictable, record the access.  Not resident with a
free frame: take it, read the bytes from disk, record the access and mark
non-evictable — exactly as the source, the free-list branch neither
installs a `page_table_` entry nor raises the pin count above zero.
Otherwise evict a victim (`none` when none exists), write it back when
dirty, move the mapping, pin to 1 and read from disk.  Replacer failures
(out-of-range frame ids) propagate as `none`. -/
def BPM.fetchPage (b : BPM) (pid : Int) : Option (Nat × BPM) :=
  match ptLookup b.pageTable pid with
  | some fid => do
    let p := b.pages.getD fid BPPage.init
    let pages := b.pages.set fid { p with pinCount := p.pinCount + 1 }
    let r1 ← b.repl.setEvictable fid false
    let r2 ← r1.recordAccess fid
    some (fid, { b with pages := pages, repl := r2 })
  | none =>
    match b.freeList with
    | fid :: rest => do
      let pages := b.pages.set fid
        { pageId := pid, pinCount := 0, isDirty := false, data := diskRead b.disk pid }
      let r1 ← b.repl.recordAccess fid
      let r2 ← r1.setEvictable fid false
      some (fid, { b with pages := pages, freeList := rest, repl := r2 })
    | [] =>
      match b.repl.evict with
      | (none, _) => none
      | (some fid, r1) => do
        let old := b.pages.getD fid BPPage.init
        let (pg1, disk1) :=
          if old.isDirty then
            ({ old with data := 0, pinCount := 0 }, diskWrite b.disk old.pageId old.data)
          else (old, b.disk)
        let pt1 := ptErase b.pageTable pg1.pageId
        let pt2 := (pid, fid) :: pt1
        let pg2 : BPPage :=
          { pageId := pid, pinCount := 1, isDirty := false, data := diskRead disk1 pid }
        let r2 ← r1.recordAccess fid
        let r3 ← r2.setEvictable fid false
        some (fid,
          { b with pages := b.pages.set fid pg2, pageTable := pt2, repl := r3, disk := disk1 })

/-! ### Lock manager

Model of `src/concurrency/lock_manager.cpp`.  Blocking on the condition
variable is modelled by the `blocked` outcome: the sequential semantics
of one `lock_*` call is: run the precondition checks, mutate the queue,
and either grant immediately (when `GrantLockIfPossible` holds) or leave
the request pending. -/

inductive LockMode
  | intentionShared | intentionExclusive | shared | sharedIntentionExclusive | exclusive
  deriving DecidableEq

inductive IsoLevel
  | repeatableRead | readCommitted | readUncommitted
  deriving DecidableEq

inductive TxnState
  | growing | shrinking | committed | aborted
  deriving DecidableEq

inductive AbortReason
  | lockOnShrinking | lockSharedOnReadUncommitted | attemptedIntentionLockOnRow
  | tableLockNotPresent | attemptedUnlockButNoLockHeld | tableUnlockedBeforeUnlockingRows
  | upgradeConflict | incompatibleUpgrade
  deriving DecidableEq

/-- Model of `Transaction`: id, state, isolation level, the per-mode table
lock sets and the row lock sets (flattened to lists of `(oid, rid)`). -/
structure Txn where
  id : Nat
  state : TxnState
  iso : IsoLevel
  sTable : List Nat
  isTable : List Nat
  ixTable : List Nat
  sixTable : List Nat
  xTable : List Nat
  sRow : List (Nat × Nat)
  xRow : List (Nat × Nat)
  deriving DecidableEq

/-- Model of `LockRequest` (granted flag, transaction, mode). -/
structure LockRequest where
  txnId : Nat
  mode : LockMode
  granted : Bool
  deriving DecidableEq

/-- Model of `LockRequestQueue`: the FIFO request list and the `upgrading_`
field (`none` for `INVALID_TXN_ID`). -/
structure LockQueue where
  reqs : List LockRequest
  upgrading : Option Nat
  deriving DecidableEq

/-- Model of `LockManager::AreLocksCompatible` (row = held `l1`,
column = requested `l2`). -/
def areLocksCompatible (l1 l2 : LockMode) : Bool :=
  match l1 with
  | .intentionShared => l2 ≠ .exclusive
  | .intentionExclusive => l2 = .intentionShared ∨ l2 = .intentionExclusive
  | .shared => l2 = .intentionShared ∨ l2 = .shared
  | .sharedIntentionExclusive => l2 = .intentionShared
  | .exclusive => false

/-- Model of `LockManager::CanLockUpgrade`. -/
def canLockUpgrade (cur req : LockMode) : Bool :=
  if cur = req then true
  else match cur with
    | .intentionShared => true
    | .shared | .intentionExclusive =>
      req = .exclusive ∨ req = .sharedIntentionExclusive
    | .sharedIntentionExclusive => req = .exclusive
    | .exclusive => false

/-- Model of `LockManager::CanTxnTakeLock`: the isolation-level gate.  A
violation sets the transaction `aborted` and reports the reason (the
source throws `TransactionAbortException`). -/
def canTxnTakeLock (txn : Txn) (m : LockMode) : Txn × Option AbortReason :=
  match txn.iso with
  | .repeatableRead =>
    if txn.state = .shrinking then ({ txn with state := .aborted }, some .lockOnShrinking)
    else (txn, none)
  | .readCommitted =>
    if txn.state = .shrinking ∧
        (m = .exclusive ∨ m = .intentionExclusive ∨ m = .sharedIntentionExclusive) then
      ({ txn with state := .aborted }, some .lockOnShrinking)
    else (txn, none)
  | .readUncommitted =>
    if m = .shared ∨ m = .intentionShared ∨ m = .sharedIntentionExclusive then
      ({ txn with state := .aborted }, some .lockSharedOnReadUncommitted)
    else if txn.state = .shrinking then
      ({ txn with state := .aborted }, some .lockOnShrinking)
    else (txn, none)

/-- Model of `LockManager::EasureTableLockBeforeRowLock`: for an exclusive
row lock the transaction must hold SIX, IX or X on the table, otherwise it
is aborted with `TABLE_LOCK_NOT_PRESENT`.  For every other mode (shared
included) the source performs no check at all. -/
def easureTableLockBeforeRowLock (txn : Txn) (m : LockMode) (oid : Nat) :
    Txn × Option AbortReason :=
  if m = .exclusive then
    if ¬(oid ∈ txn.sixTable ∨ oid ∈ txn.ixTable ∨ oid ∈ txn.xTable) then
      ({ txn with state := .aborted }, some .tableLockNotPresent)
    else (txn, none)
  else (txn, none)

/-- Model of `LockManager::GrantLockIfPossible`: walk the queue; an
incompatible granted request ahead of ours denies; a different non-granted
request ahead of ours denies (FIFO); reaching our own request grants. -/
def grantLockIfPossible (req : LockRequest) : List LockRequest → Bool
  | [] => true
  | r :: rest =>
    if r.granted then areLocksCompatible r.mode req.mode && grantLockIfPossible req rest
    else r.txnId = req.txnId

/-- Model of `LockManager::InsertRowLock` (set insert). -/
def insertRowLock (txn : Txn) (oid rid : Nat) (m : LockMode) : Txn :=
  match m with
  | .shared =>
    if (oid, rid) ∈ txn.sRow then txn else { txn with sRow := (oid, rid) :: txn.sRow }
  | .exclusive =>
    if (oid, rid) ∈ txn.xRow then txn else { txn with xRow := (oid, rid) :: txn.xRow }
  | _ => txn

def erasePair : List (Nat × Nat) → Nat × Nat → List (Nat × Nat)
  | [], _ => []
  | p :: rest, q => if p = q then rest else p :: erasePair rest q

/-- Model of `LockManager::DeleteRowLock`. -/
def deleteRowLock (txn : Txn) (oid rid : Nat) (m : LockMode) : Txn :=
  match m with
  | .shared => { txn with sRow := erasePair txn.sRow (oid, rid) }
  | .exclusive => { txn with xRow := erasePair txn.xRow (oid, rid) }
  | _ => txn

def markGranted (reqs : List LockRequest) (tid : Nat) : List LockRequest :=
  reqs.map fun r => if r.txnId = tid then { r with granted := true } else r

def eraseReqOf : List LockRequest → Nat → List LockRequest
  | [], _ => []
  | r :: rest, tid => if r.txnId = tid then rest else r :: eraseReqOf rest tid

/-- Insert a request at the boundary between granted and non-granted
requests (the upgrade-priority position of `UpgradeLockRow`). -/
def insertAtBoundary (r : LockRequest) : List LockRequest → List LockRequest
  | [] => [r]
  | x :: rest => if x.granted then x :: insertAtBoundary r rest else r :: x :: rest

/-- Outcome of one sequential `lock_*` call: granted immediately, left
waiting on the queue, or aborted with a reason. -/
inductive LockResult
  | granted (txn : Txn) (q : LockQueue)
  | blocked (txn : Txn) (q : LockQueue)
  | aborted (txn : Txn) (reason : AbortReason)
  deriving DecidableEq

/-- Model of `LockManager::UpgradeLockRow` (entered when the transaction
already has a request on this rid): same mode succeeds with no change;
a pending upgrade by another transaction aborts with `UPGRADE_CONFLICT`;
an illegal transition aborts with `INCOMPATIBLE_UPGRADE`; otherwise the
old request is replaced by a non-granted one at the granted boundary and
granted when possible. -/
def upgradeLockRow (txn : Txn) (q : LockQueue) (m : LockMode) (oid rid : Nat) : LockResult :=
  match q.reqs.find? (fun r => r.txnId == txn.id) with
  | none => .blocked txn q
  | some oldReq =>
    if oldReq.mode = m then .granted txn q
    else if q.upgrading ≠ none then
      .aborted { txn with state := .aborted } .upgradeConflict
    else if ¬canLockUpgrade oldReq.mode m then
      .aborted { txn with state := .aborted } .incompatibleUpgrade
    else
      let txn1 := deleteRowLock txn oid rid oldReq.mode
      let newReq : LockRequest := { txnId := txn.id, mode := m, granted := false }
      let reqs2 := insertAtBoundary newReq (eraseReqOf q.reqs txn.id)
      if grantLockIfPossible newReq reqs2 then
        .granted (insertRowLock txn1 oid rid m)
          { reqs := markGranted reqs2 txn.id, upgrading := none }
      else .blocked txn1 { reqs := reqs2, upgrading := some txn.id }

/-- Model of `LockManager::LockRow`: reject intention modes on rows, apply
the isolation gate, apply `EasureTableLockBeforeRowLock`, then upgrade or
append a request and grant it when `GrantLockIfPossible` allows. -/
def lockRow (txn : Txn) (m : LockMode) (oid rid : Nat) (q : LockQueue) : LockResult :=
  if m = .intentionExclusive ∨ m = .intentionShared ∨ m = .sharedIntentionExclusive then
    .aborted { txn with state := .aborted } .attemptedIntentionLockOnRow
  else
    match canTxnTakeLock txn m with
    | (txn1, some r) => .aborted txn1 r
    | (txn1, none) =>
      match easureTableLockBeforeRowLock txn1 m oid with
      | (txn2, some r) => .aborted txn2 r
      | (txn2, none) =>
        if q.reqs.any (fun r => r.txnId == txn2.id) then upgradeLockRow txn2 q m oid rid
        else
          let req : LockRequest := { txnId := txn2.id, mode := m, granted := false }
          let reqs1 := q.reqs ++ [req]
          if grantLockIfPossible req reqs1 then
            .granted (insertRowLock txn2 oid rid m)
              { q with reqs := markGranted reqs1 txn2.id }
          else .blocked txn2 { q with reqs := reqs1 }

/-- Transaction-state transition performed on lock release (the `switch`
shared by `UnlockTable` and `UnlockRow`): under `REPEATABLE_READ`
releasing S or X moves the transaction to `SHRINKING`; under the other two
levels only releasing X does. -/
def unlockStateTransition (txn : Txn) (m : LockMode) : Txn :=
  match txn.iso with
  | .repeatableRead =>
    if m = .exclusive ∨ m = .shared then { txn with state := .shrinking } else txn
  | .readCommitted | .readUncommitted =>
    if m = .exclusive then { txn with state := .shrinking } else txn

def findGrantedOf : List LockRequest → Nat → Option (Nat × LockRequest)
  | [], _ => none
  | r :: rest, tid =>
    if r.txnId = tid ∧ r.granted then some (0, r)
    else match findGrantedOf rest tid with
      | some (i, x) => some (i + 1, x)
      | none => none

inductive UnlockResult
  | ok (txn : Txn) (q : LockQueue)
  | err (txn : Txn) (reason : AbortReason)
  deriving DecidableEq

/-- Model of `LockManager::UnlockRow`.  A missing queue or no granted
request aborts with `ATTEMPTED_UNLOCK_BUT_NO_LOCK_HELD`.  Otherwise the
row lock set is updated, the isolation-based state transition runs — the
`force` parameter is accepted but never consulted by the source — and the
request is removed from the queue. -/
def unlockRow (txn : Txn) (oid rid : Nat) (force : Bool) (q? : Option LockQueue) :
    UnlockResult :=
  match q? with
  | none => .err { txn with state := .aborted } .attemptedUnlockButNoLockHeld
  | some q =>
    match findGrantedOf q.reqs txn.id with
    | none => .err { txn with state := .aborted } .attemptedUnlockButNoLockHeld
    | some (i, req) =>
      let txn1 := deleteRowLock txn oid rid req.mode
      let txn2 := unlockStateTransition txn1 req.mode
      .ok txn2 { q with reqs := q.reqs.eraseIdx i }

/-! ### Deadlock detection

Model of the waits-for graph and `LockManager::HasCycle`.  The graph is
an association list from transaction id to its out-neighbour vector.
`HasCycle` sorts every adjacency vector and the vertex list ascending,
then runs a depth-first search from each vertex in order; when a
neighbour already on the current path is met at node `t1`, the victim
written through the out-parameter is `t1` itself.  The C++ recursion is
bounded by the visited set; the model carries explicit fuel which
`hasCycle` instantiates above the recursion depth. -/

abbrev WaitsFor := List (Nat × List Nat)

def wfAdj (g : WaitsFor) (t : Nat) : List Nat :=
  match g with
  | [] => []
  | (q, ns) :: rest => if q = t then ns else wfAdj rest t

def insertSortedNat (x : Nat) : List Nat → List Nat
  | [] => [x]
  | y :: rest => if x ≤ y then x :: y :: rest else y :: insertSortedNat x rest

def sortAsc (l : List Nat) : List Nat := l.foldr insertSortedNat []

/-- One `dfs(t1)` activation of `HasCycle`: mark `t1` visited, walk the
sorted neighbours in order — an already-visited neighbour closes a cycle
and names the current node `t1` as victim; a victim found deeper stops
the loop — and on an unwound return clear the mark.  The fold carries
the (victim, visited) pair exactly as the source's early returns do. -/
def dfsVisit (g : WaitsFor) : Nat → List Nat → Nat → Option Nat × List Nat
  | 0, vis, _ => (none, vis)
  | fuel + 1, vis, t1 =>
    let step := fun (st : Option Nat × List Nat) (t2 : Nat) =>
      match st with
      | (some v, vis2) => (some v, vis2)
      | (none, vis2) =>
        if t2 ∈ vis2 then (some t1, vis2) else dfsVisit g fuel vis2 t2
    match (sortAsc (wfAdj g t1)).foldl step (none, t1 :: vis) with
    | (some v, vis2) => (some v, vis2)
    | (none, vis2) => (none, vis2.erase t1)

/-- Model of `LockManager::HasCycle`: sorted vertices, shared visited map,
first victim found wins; `none` when the graph is acyclic.
`RunCycleDetection` sets this victim's state to `ABORTED`. -/
def hasCycle (g : WaitsFor) : Option Nat :=
  let vertices := sortAsc (g.map (fun p => p.1))
  let fuel := vertices.length + (g.map (fun p => p.2.length)).sum + 1
  let rec loop : List Nat → List Nat → Option Nat
    | [], _ => none
    | v :: rest, vis =>
      match dfsVisit g fuel vis v with
      | (some victim, _) => some victim
      | (none, vis2) => loop rest vis2
  loop vertices []

/-! ### B+ tree pages

Model of `src/page/b_plus_tree_leaf_page.cpp` and
`src/page/b_plus_tree_internal_page.cpp`.  Keys are `Int` (the generic
comparator is a total order), leaf values are `Nat` record ids, internal
values are child page ids.  A page's entry array is the list of its
`size` valid slots; where the source reads one slot past the valid range
the model takes an explicit residual value or a stated default. -/

/-- Model of `BPlusTreeLeafPage`: ordered `(key, rid)` entries, the common
header fields and the `next_page_id_` chain pointer. -/
structure LeafPage where
  entries : List (Int × Nat)
  maxSize : Int
  parent : Int
  pageId : Int
  next : Int
  deriving DecidableEq

/-- Model of `BPlusTreeInternalPage`: `(key, child page id)` entries with
the key of entry 0 ignored, plus the common header fields. -/
structure InternalPage where
  entries : List (Int × Int)
  maxSize : Int
  parent : Int
  pageId : Int
  deriving DecidableEq

inductive TreePage
  | leaf (l : LeafPage)
  | internal (n : InternalPage)
  deriving DecidableEq

def TreePage.parentOf : TreePage → Int
  | .leaf l => l.parent
  | .internal n => n.parent

def TreePage.sizeOf : TreePage → Nat
  | .leaf l => l.entries.length
  | .internal n => n.entries.length

def TreePage.maxSizeOf : TreePage → Int
  | .leaf l => l.maxSize
  | .internal n => n.maxSize

/-- Model of `BPlusTreePage::IsLeafPage` (the `page_type_` tag). -/
def TreePage.isLeafPage : TreePage → Bool
  | .leaf _ => true
  | .internal _ => false

def TreePage.withParent : TreePage → Int → TreePage
  | .leaf l, p => .leaf { l with parent := p }
  | .internal n, p => .internal { n with parent := p }

/-- Pages resident under the buffer pool, keyed by page id. -/
abbrev Store := List (Int × TreePage)

def storeGet : Store → Int → Option TreePage
  | [], _ => none
  | (q, pg) :: rest, pid => if q = pid then some pg else storeGet rest pid

def storeSet : Store → Int → TreePage → Store
  | [], pid, pg => [(pid, pg)]
  | (q, old) :: rest, pid, pg =>
    if q = pid then (pid, pg) :: rest else (q, old) :: storeSet rest pid pg

/-- Repoint a page's `parent_page_id` (`SetParentPageId` through a fetch);
`none` when the page is not found. -/
def setParentIn (s : Store) (pid newParent : Int) : Option Store :=
  match storeGet s pid with
  | none => none
  | some pg => some (storeSet s pid (pg.withParent newParent))

def setParentsIn (s : Store) (pids : List Int) (newParent : Int) : Option Store :=
  match pids with
  | [] => some s
  | pid :: rest => do
    let s1 ← setParentIn s pid newParent
    setParentsIn s1 rest newParent

/-- Model of `BPlusTreeLeafPage::KeyIndex`: the first position whose key
is greater than or equal to the probe (`comparator(key, KeyAt(index)) <= 0`
breaks); equals the size when every stored key is smaller. -/
def keyIndexGo (k : Int) : List (Int × Nat) → Nat
  | [] => 0
  | (key, _) :: rest => if k ≤ key then 0 else keyIndexGo k rest + 1

def LeafPage.keyIndex (l : LeafPage) (k : Int) : Nat := keyIndexGo k l.entries

/-- Total-embedding read of a leaf key slot: `none` past the valid range. -/
def LeafPage.keyAtQ (l : LeafPage) (i : Nat) : Option Int :=
  (l.entries.get? i).map (fun e => e.1)

/-- Model of `BPlusTreeLeafPage::Insert` with the residual key `res` held
by the unused slot `array_[GetSize()]`.  The source evaluates
`comparator(key, KeyAt(index)) == 0` before `index < GetSize()`, so when
the new key exceeds every stored key the comparator is consulted on the
residual slot; the conjunction is false there regardless of `res`.
Returns the resulting `GetSize()` (unchanged on duplicate) and the page. -/
def LeafPage.insertR (l : LeafPage) (k : Int) (v : Nat) (res : Int) : Nat × LeafPage :=
  let index := l.keyIndex k
  let atIdx := (l.entries.getD index (res, 0)).1
  if atIdx = k ∧ index < l.entries.length then (l.entries.length, l)
  else
    let es := l.entries.take index ++ (k, v) :: l.entries.drop index
    (es.length, { l with entries := es })

/-- The collection loop of `BPlusTree::GetValue`: values of every entry
whose key compares equal, in slot order. -/
def collectMatches (k : Int) : List (Int × Nat) → List Nat
  | [] => []
  | (key, v) :: rest => if key = k then v :: collectMatches k rest else collectMatches k rest

/-- Model of `BPlusTreeLeafPage::RemoveAndDeleteRecord`: shift the
entries after the key's position left by one and shrink (the call path
guarantees the key is present at `KeyIndex`). -/
def LeafPage.removeRecord (l : LeafPage) (k : Int) : Nat × LeafPage :=
  let index := l.keyIndex k
  let es := l.entries.eraseIdx index
  (es.length, { l with entries := es })

/-- Model of `BPlusTreeLeafPage::MoveFirstToEndOf` exactly as written:
`CopyLastFrom(array_[0])` appends the first entry to the recipient, then
the loop `array_[i + 1] = array_[i]` for `i = 0 .. size-2` runs — copying
forward, so slot `i+1` receives the value slot `i` holds after the
previous iteration — and the size shrinks by one. -/
def leafMoveFirstToEndOfPages (donor recipient : LeafPage) : LeafPage × LeafPage :=
  let n := donor.entries.length
  let item := donor.entries.getD 0 (0, 0)
  let recip := { recipient with entries := recipient.entries ++ [item] }
  let arr := (List.range (n - 1)).foldl
    (fun (a : List (Int × Nat)) i => a.set (i + 1) (a.getD i (0, 0))) donor.entries
  ({ donor with entries := arr.take (n - 1) }, recip)

/-- Model of `BPlusTreeLeafPage::MoveLastToFrontOf` with `CopyFirstFrom`:
the donor's last entry becomes the recipient's new first entry. -/
def leafMoveLastToFrontOfPages (donor recipient : LeafPage) : LeafPage × LeafPage :=
  let item := donor.entries.getLastD (0, 0)
  ({ donor with entries := donor.entries.dropLast },
   { recipient with entries := item :: recipient.entries })

/-- Model of `BPlusTreeLeafPage::MoveAllTo`: append every entry to the
recipient, clear the donor, and hand the donor's `next_page_id_` to the
recipient. -/
def leafMoveAllToPages (donor recipient : LeafPage) : LeafPage × LeafPage :=
  ({ donor with entries := [] },
   { recipient with entries := recipient.entries ++ donor.entries, next := donor.next })

/-- Model of `BPlusTreeInternalPage::Lookup`: starting from `ValueAt(0)`,
scan keys from index 1 and descend left of the first key strictly greater
than the probe; otherwise the last child.  An empty internal page reads
`ValueAt(-1)` in the source; the model yields the invalid page id. -/
def internalLookupGo (k : Int) (prev : Int) : List (Int × Int) → Int
  | [] => prev
  | (key, pid) :: rest => if k < key then prev else internalLookupGo k pid rest

def InternalPage.lookup (n : InternalPage) (k : Int) : Int :=
  match n.entries with
  | [] => -1
  | (_, pid0) :: rest => internalLookupGo k pid0 rest

/-- Model of `BPlusTreeInternalPage::InsertNodeAfter`: place the new
`(key, child)` pair right after the entry holding `old_value`; `none` for
the `assert(old_index != -1)` failure. -/
def InternalPage.insertNodeAfter (n : InternalPage) (oldPid k newPid : Int) :
    Option InternalPage :=
  match n.entries.findIdx? (fun e => e.2 == oldPid) with
  | none => none
  | some i =>
    some { n with entries := n.entries.take (i + 1) ++ (k, newPid) :: n.entries.drop (i + 1) }

/-- Model of `BPlusTreeInternalPage::RemoveAndDeleteRecord` (by index). -/
def InternalPage.removeAt (n : InternalPage) (i : Nat) : InternalPage :=
  { n with entries := n.entries.eraseIdx i }

/-! ### B+ tree operations

Model of `src/storage/index/b_plus_tree.cpp`.  The header page holding
`root_page_id_` is the `root` field; `INVALID_PAGE_ID` is `-1`.  The
descent loops and the upward recursion of `InsertIntoParent` and
`CoalesceOrRedistribute` carry explicit fuel; `none` models an assertion
failure, a missing page, or exhausted fuel. -/

/-- Model of `BPlusTree` together with the buffer-pool state it operates
on: header (`root`), page store, the two tunables and the allocator. -/
structure BTree where
  root : Int
  store : Store
  leafMax : Int
  internalMax : Int
  nextPid : Int
  deriving DecidableEq

/-- Model of `BPlusTree::IsEmpty`: the header holds the invalid id. -/
def BTree.isEmpty (t : BTree) : Bool := t.root == -1

/-- Model of `BPlusTreePage::GetMinSize`: `(max_size_ + 1) / 2`. -/
def pageMinSize (m : Int) : Int := (m + 1) / 2

/-- Model of `BPlusTree::FindLeafPage`: descend from the given page by
`Lookup` until a leaf is reached. -/
def findLeaf (s : Store) (k : Int) : Nat → Int → Option (Int × LeafPage)
  | 0, _ => none
  | fuel + 1, pid =>
    match storeGet s pid with
    | some (.leaf l) => some (pid, l)
    | some (.internal n) => findLeaf s k fuel (n.lookup k)
    | none => none

/-- Model of `BPlusTree::GetValue`: empty tree fails the root assertion;
otherwise descend and collect every matching value of the leaf, the flag
recording whether any match was found. -/
def BTree.getValue (t : BTree) (fuel : Nat) (k : Int) : Option (Bool × List Nat) :=
  if t.root = -1 then none
  else do
    let (_, l) ← findLeaf t.store k fuel t.root
    let vs := collectMatches k l.entries
    some (!vs.isEmpty, vs)

/-- Model of `BPlusTree::StartNewTree`: allocate a leaf, initialise it as
the root, insert the pair and point the header at it. -/
def startNewTree (t : BTree) (k : Int) (v : Nat) : BTree :=
  let pid := t.nextPid
  let l0 : LeafPage :=
    { entries := [], maxSize := t.leafMax, parent := -1, pageId := pid, next := -1 }
  let (_, l1) := l0.insertR k v 0
  { t with store := storeSet t.store pid (.leaf l1), root := pid, nextPid := pid + 1 }

/-- Model of `BPlusTree::Split` on a leaf with `MoveHalfTo`: the upper
half (`size - size / 2` entries) moves to a fresh leaf that inherits the
parent and the old `next` pointer; the old leaf now links to it. -/
def splitLeaf (t : BTree) (pid : Int) : Option (BTree × LeafPage) :=
  match storeGet t.store pid with
  | some (.leaf l) =>
    let newPid := t.nextPid
    let half := l.entries.length / 2
    let right : LeafPage :=
      { entries := l.entries.drop half, maxSize := t.leafMax, parent := l.parent,
        pageId := newPid, next := l.next }
    let left := { l with entries := l.entries.take half, next := newPid }
    let s1 := storeSet (storeSet t.store pid (.leaf left)) newPid (.leaf right)
    some ({ t with store := s1, nextPid := newPid + 1 }, right)
  | _ => none

/-- Model of `BPlusTree::Split` on an internal page: the upper half moves
to a fresh page and — as `CopyNFrom` does — every moved entry's child is
refetched and its `parent_page_id` repointed at the new page. -/
def splitInternal (t : BTree) (pid : Int) : Option (BTree × InternalPage) :=
  match storeGet t.store pid with
  | some (.internal n) => do
    let newPid := t.nextPid
    let half := n.entries.length / 2
    let moved := n.entries.drop half
    let left := { n with entries := n.entries.take half }
    let right : InternalPage :=
      { entries := moved, maxSize := t.internalMax, parent := n.parent, pageId := newPid }
    let s1 := storeSet (storeSet t.store pid (.internal left)) newPid (.internal right)
    let s2 ← setParentsIn s1 (moved.map (fun e => e.2)) newPid
    some ({ t with store := s2, nextPid := newPid + 1 }, right)
  | _ => none

/-- Model of `BPlusTree::InsertIntoParent`.  With a parent: repoint the
new page at it, insert the separator after the old page's entry, and
split-and-recurse when the parent exceeds `internal_max`.  Without one:
build a fresh internal root via `PopulateNewRoot` (its slot-0 key is the
zeroed memory of the new page), repoint both children and the header. -/
def insertIntoParent (t : BTree) : Nat → Int → Int → Int → Option BTree
  | 0, _, _, _ => none
  | fuel + 1, oldPid, k, newPid => do
    let oldPg ← storeGet t.store oldPid
    let parentPid := oldPg.parentOf
    if parentPid ≠ -1 then
      match storeGet t.store parentPid with
      | some (.internal parent) => do
        let s1 ← setParentIn t.store newPid parentPid
        let parent1 ← parent.insertNodeAfter oldPid k newPid
        let t1 := { t with store := storeSet s1 parentPid (.internal parent1) }
        if (parent1.entries.length : Int) > parent1.maxSize then do
          let (t2, rightN) ← splitInternal t1 parentPid
          insertIntoParent t2 fuel parentPid (rightN.entries.headD (0, -1)).1 rightN.pageId
        else some t1
      | _ => none
    else
      let rootPid := t.nextPid
      let newRoot : InternalPage :=
        { entries := [(0, oldPid), (k, newPid)], maxSize := t.internalMax,
          parent := -1, pageId := rootPid }
      let s1 := storeSet t.store rootPid (.internal newRoot)
      do
        let s2 ← setParentIn s1 oldPid rootPid
        let s3 ← setParentIn s2 newPid rootPid
        some { t with store := s3, root := rootPid, nextPid := rootPid + 1 }

/-- Model of `BPlusTree::InsertIntoLeaf`: descend, insert into the leaf
(false on duplicate), and when the new size reaches `leaf_max - 1` split
and push the new leaf's first key to the parent. -/
def insertIntoLeaf (t : BTree) (fuel : Nat) (k : Int) (v : Nat) : Option (Bool × BTree) := do
  let (pid, l) ← findLeaf t.store k fuel t.root
  let oldSize := l.entries.length
  let (newSize, l1) := l.insertR k v 0
  if newSize = oldSize then some (false, t)
  else
    let t1 := { t with store := storeSet t.store pid (.leaf l1) }
    if (newSize : Int) < t.leafMax - 1 then some (true, t1)
    else do
      let (t2, right) ← splitLeaf t1 pid
      let t3 ← insertIntoParent t2 fuel pid (right.entries.headD (0, 0)).1 right.pageId
      some (true, t3)

/-- Model of `BPlusTree::Insert`: start a new tree when empty, else
insert through the leaf. -/
def BTree.insert (t : BTree) (fuel : Nat) (k : Int) (v : Nat) : Option (Bool × BTree) :=
  if t.root = -1 then some (true, startNewTree t k v)
  else insertIntoLeaf t fuel k v

/-- Model of `BPlusTree::AdjustRoot`: promote the single child of the
internal root, clear its parent pointer and repoint the header. -/
def adjustRoot (t : BTree) (pid : Int) : Option BTree :=
  match storeGet t.store pid with
  | some (.internal n) => do
    let newRootPid := (n.entries.headD (0, -1)).2
    let s1 ← setParentIn t.store newRootPid (-1)
    some { t with store := s1, root := newRootPid }
  | _ => none

/-- Model of `BPlusTreeInternalPage::MoveFirstToEndOf` (this variant
shifts correctly): the first entry joins the recipient's tail,
`CopyLastFrom` repoints that entry's child, and the donor drops its
head. -/
def internalMoveFirstToEndOf (s : Store) (fromPid toPid : Int) : Option Store :=
  match storeGet s fromPid, storeGet s toPid with
  | some (.internal f), some (.internal t0) => do
    let item := f.entries.headD (0, -1)
    let s1 := storeSet s toPid (.internal { t0 with entries := t0.entries ++ [item] })
    let s2 ← setParentIn s1 item.2 toPid
    match storeGet s2 fromPid with
    | some (.internal f2) =>
      some (storeSet s2 fromPid (.internal { f2 with entries := f2.entries.tail }))
    | _ => none
  | _, _ => none

/-- Model of `BPlusTreeInternalPage::MoveLastToFrontOf` with
`CopyFirstFrom` (which repoints the moved child). -/
def internalMoveLastToFrontOf (s : Store) (fromPid toPid : Int) : Option Store :=
  match storeGet s fromPid, storeGet s toPid with
  | some (.internal f), some (.internal t0) => do
    let item := f.entries.getLastD (0, -1)
    let s1 := storeSet s toPid (.internal { t0 with entries := item :: t0.entries })
    let s2 ← setParentIn s1 item.2 toPid
    match storeGet s2 fromPid with
    | some (.internal f2) =>
      some (storeSet s2 fromPid (.internal { f2 with entries := f2.entries.dropLast }))
    | _ => none
  | _, _ => none

/-- Model of `BPlusTreeInternalPage::MoveAllTo`: append the donor's
entries to the recipient, repointing each moved child at it. -/
def internalMoveAllTo (s : Store) (fromPid toPid : Int) : Option Store :=
  match storeGet s fromPid, storeGet s toPid with
  | some (.internal f), some (.internal t0) => do
    let s1 := storeSet s toPid (.internal { t0 with entries := t0.entries ++ f.entries })
    let s2 ← setParentsIn s1 (f.entries.map (fun e => e.2)) toPid
    match storeGet s2 fromPid with
    | some (.internal f2) =>
      some (storeSet s2 fromPid (.internal { f2 with entries := [] }))
    | _ => none
  | _, _ => none

/-- Dispatch of the `MoveFirstToEndOf` template member on the page type
held at `fromPid` (the leaf variant carries the forward-copying loop of
the source). -/
def moveFirstToEndOf (s : Store) (fromPid toPid : Int) : Option Store :=
  match storeGet s fromPid, storeGet s toPid with
  | some (.leaf f), some (.leaf t0) =>
    let (f1, t1) := leafMoveFirstToEndOfPages f t0
    some (storeSet (storeSet s toPid (.leaf t1)) fromPid (.leaf f1))
  | some (.internal _), some (.internal _) => internalMoveFirstToEndOf s fromPid toPid
  | _, _ => none

def moveLastToFrontOf (s : Store) (fromPid toPid : Int) : Option Store :=
  match storeGet s fromPid, storeGet s toPid with
  | some (.leaf f), some (.leaf t0) =>
    let (f1, t1) := leafMoveLastToFrontOfPages f t0
    some (storeSet (storeSet s toPid (.leaf t1)) fromPid (.leaf f1))
  | some (.internal _), some (.internal _) => internalMoveLastToFrontOf s fromPid toPid
  | _, _ => none

def moveAllTo (s : Store) (fromPid toPid : Int) : Option Store :=
  match storeGet s fromPid, storeGet s toPid with
  | some (.leaf f), some (.leaf t0) =>
    let (f1, t1) := leafMoveAllToPages f t0
    some (storeSet (storeSet s toPid (.leaf t1)) fromPid (.leaf f1))
  | some (.internal _), some (.internal _) => internalMoveAllTo s fromPid toPid
  | _, _ => none

/-- Model of `BPlusTree::Redistribute`: for a right sibling, its first
entry moves to the left node's end; for a left sibling, its last entry
moves to the right node's front.  In both cases the parent's key at the
right node's entry is set to the right node's key 0 after the move
(`SetKeyAt` asserts that index is not 0). -/
def redistribute (t : BTree) (leftPid rightPid : Int) (isRightBrother : Bool) :
    Option BTree := do
  let s1 ←
    if isRightBrother then moveFirstToEndOf t.store rightPid leftPid
    else moveLastToFrontOf t.store leftPid rightPid
  let leftPg ← storeGet s1 leftPid
  let parentPid := leftPg.parentOf
  match storeGet s1 parentPid, storeGet s1 rightPid with
  | some (.internal parent), some rightPg => do
    let alterIdx ← parent.entries.findIdx? (fun e => e.2 == rightPid)
    if alterIdx = 0 then none
    else
      let newKey :=
        match rightPg with
        | .leaf l => (l.entries.headD (0, 0)).1
        | .internal n => (n.entries.headD (0, 0)).1
      let cur := parent.entries.getD alterIdx (0, 0)
      let parent1 := { parent with entries := parent.entries.set alterIdx (newKey, cur.2) }
      some { t with store := storeSet s1 parentPid (.internal parent1) }
  | _, _ => none

/-- Body of `BPlusTree::Coalesce`, parameterised by the recursive call
into `CoalesceOrRedistribute` for the under-flowing parent: move the
right node's contents into the left node, delete the right node's entry
(and separator) from the parent, and recurse when the parent underflows. -/
def coalesceGo (recur : BTree → Int → Option BTree) (t : BTree) (leftPid rightPid : Int) :
    Option BTree := do
  let rightPg ← storeGet t.store rightPid
  let parentPid := rightPg.parentOf
  match storeGet t.store parentPid with
  | some (.internal parent) => do
    let removeIdx ← parent.entries.findIdx? (fun e => e.2 == rightPid)
    let s1 ← moveAllTo t.store rightPid leftPid
    match storeGet s1 parentPid with
    | some (.internal parent1) =>
      let parent2 := parent1.removeAt removeIdx
      let t1 := { t with store := storeSet s1 parentPid (.internal parent2) }
      if (parent2.entries.length : Int) < pageMinSize parent2.maxSize then
        recur t1 parentPid
      else some t1
    | _ => none
  | _ => none

/-- Model of `BPlusTree::CoalesceOrRedistribute`: a root shrinks only
when it is an internal page of size 1 (`AdjustRoot`); an empty root leaf
is left in place.  Otherwise the sibling is the left neighbour except at
index 0, and it either spares one entry (redistribute) or is merged. -/
def coalesceOrRedistribute : Nat → BTree → Int → Option BTree
  | 0, _, _ => none
  | fuel + 1, t, pid =>
    match storeGet t.store pid with
    | none => none
    | some node =>
      if node.parentOf = -1 then
        if node.sizeOf = 1 ∧ node.isLeafPage = false then adjustRoot t pid else some t
      else
        match storeGet t.store node.parentOf with
        | some (.internal parent) => do
          let meIdx ← parent.entries.findIdx? (fun e => e.2 == pid)
          let sibIdx := if meIdx = 0 then meIdx + 1 else meIdx - 1
          let sibPid := (parent.entries.getD sibIdx (0, -1)).2
          let isRight := meIdx = 0
          match storeGet t.store sibPid with
          | none => none
          | some sib =>
            if (sib.sizeOf : Int) ≥ pageMinSize sib.maxSizeOf + 1 then
              if isRight then redistribute t pid sibPid true
              else redistribute t sibPid pid false
            else
              if isRight then coalesceGo (coalesceOrRedistribute fuel) t pid sibPid
              else coalesceGo (coalesceOrRedistribute fuel) t sibPid pid
        | _ => none

/-- Model of `BPlusTree::Coalesce` (see `coalesceGo`). -/
def coalesce (fuel : Nat) (t : BTree) (leftPid rightPid : Int) : Option BTree :=
  coalesceGo (coalesceOrRedistribute fuel) t leftPid rightPid

/-- Model of `BPlusTree::Remove`: empty tree is a no-op; a missing key is
a no-op (the guard consults one slot past the range exactly when
`KeyIndex` equals the size, where the disjunction holds regardless, so
the bound test is written first here); otherwise delete and, on
underflow, coalesce or redistribute. -/
def BTree.remove (t : BTree) (fuel : Nat) (k : Int) : Option BTree :=
  if t.root = -1 then some t
  else do
    let (pid, l) ← findLeaf t.store k fuel t.root
    let ri := l.keyIndex k
    if l.entries.length ≤ ri ∨ (l.entries.getD ri (k + 1, 0)).1 ≠ k then some t
    else
      let (newSize, l1) := l.removeRecord k
      let t1 := { t with store := storeSet t.store pid (.leaf l1) }
      if (newSize : Int) ≥ pageMinSize l1.maxSize then some t1
      else coalesceOrRedistribute fuel t1 pid

/-! ### Index iterator

Model of `src/storage/index/index_iterator.cpp` and
`BPlusTree::Begin(key)` / `End`. -/

/-- Model of `IndexIterator`: the current leaf (page id and page, `none`
for the null-leaf sentinel) and the slot index. -/
structure IndexIterator where
  cur : Option (Int × LeafPage)
  index : Nat
  deriving DecidableEq

/-- Model of `BPlusTree::End`: the null-leaf sentinel. -/
def iterEnd : IndexIterator := { cur := none, index := 0 }

/-- Model of `IndexIterator::IsEnd`. -/
def IndexIterator.isEnd (it : IndexIterator) : Bool :=
  match it.cur with
  | none => true
  | some (_, l) => l.entries.length ≤ it.index

/-- Model of `IndexIterator::operator++`: advance the index; when the
leaf is exhausted follow `next_page_id_`, reaching the sentinel at the
invalid id; `none` models advancing the sentinel itself or a failed
fetch of the next leaf. -/
def iterNext (s : Store) (it : IndexIterator) : Option IndexIterator :=
  match it.cur with
  | none => none
  | some (pid, l) =>
    let i := it.index + 1
    if l.entries.length ≤ i then
      if l.next = -1 then some iterEnd
      else
        match storeGet s l.next with
        | some (.leaf l2) => some { cur := some (l.next, l2), index := 0 }
        | _ => none
    else some { cur := some (pid, l), index := i }

/-- Model of `BPlusTree::Begin(key)`: descend as `GetValue` does, take
`KeyIndex`, and `assert(comparator_(key, KeyAt(index)) == 0)` — the
iterator exists only when the probe key is exactly present (an index at
the size compares the probe with an unspecified slot; the model treats
that as the assertion failing). -/
def beginKey (t : BTree) (fuel : Nat) (k : Int) : Option IndexIterator := do
  let (pid, l) ← findLeaf t.store k fuel t.root
  let i := l.keyIndex k
  if i < l.entries.length ∧ (l.entries.getD i (k + 1, 0)).1 = k then
    some { cur := some (pid, l), index := i }
  else none

/-- Entries visited by repeatedly dereferencing and advancing an
iterator until the sentinel, with fuel bounding the walk. -/
def iterCollect (s : Store) : Nat → IndexIterator → List (Int × Nat)
  | 0, _ => []
  | fuel + 1, it =>
    match it.cur with
    | none => []
    | some (_, l) =>
      match iterNext s it with
      | none => [l.entries.getD it.index (0, 0)]
      | some it2 => l.entries.getD it.index (0, 0) :: iterCollect s fuel it2

/-- A chain of leaves linked through `next_page_id_`, terminated by the
invalid id. -/
inductive LeafChain (s : Store) : Int → List LeafPage → Prop
  | nil : LeafChain s (-1) []
  | cons {pid : Int} {L : LeafPage} {rest : List LeafPage} :
      pid ≠ -1 → storeGet s pid = some (.leaf L) → LeafChain s L.next rest →
      LeafChain s pid (L :: rest)

/-! ### Concrete inputs used by the claim theorems -/

/-- A fresh pool of two frames with `k = 2` (the constructor state). -/
def c1pool : BPM := BPM.init 2 2

/-- A transaction in `GROWING` under `REPEATABLE_READ` holding no lock at
all. -/
def freshTxn : Txn :=
  { id := 0, state := .growing, iso := .repeatableRead, sTable := [], isTable := [],
    ixTable := [], sixTable := [], xTable := [], sRow := [], xRow := [] }

/-- `freshTxn` after acquiring the S row lock on row 7 of table 1. -/
def c7txn : Txn := { freshTxn with sRow := [(1, 7)] }

/-- The request queue of row 7: one granted S request of transaction 0. -/
def c7queue : LockQueue :=
  { reqs := [{ txnId := 0, mode := .shared, granted := true }], upgrading := none }

/-- Waits-for graph of the cycle 0 → 2 → 1 → 0 (ids not in traversal
order). -/
def cycleGraphA : WaitsFor := [(0, [2]), (2, [1]), (1, [0])]

/-- Waits-for graph of the cycle 0 → 1 → 2 → 0 (ids in traversal order). -/
def cycleGraphB : WaitsFor := [(0, [1]), (1, [2]), (2, [0])]

/-- A two-leaf tree (`leaf_max = 4`, min size 2): root with separator 3
over leaves `[(1,10), (2,20)]` and `[(3,30), (4,40), (5,50)]`.  Removing
key 1 underflows the left leaf and redistributes from the right
sibling. -/
def c3tree : BTree :=
  { root := 1,
    store := [
      (1, .internal { entries := [(0, 2), (3, 3)], maxSize := 3, parent := -1, pageId := 1 }),
      (2, .leaf { entries := [(1, 10), (2, 20)], maxSize := 4, parent := 1, pageId := 2, next := 3 }),
      (3, .leaf { entries := [(3, 30), (4, 40), (5, 50)], maxSize := 4, parent := 1, pageId := 3, next := -1 }) ],
    leafMax := 4, internalMax := 3, nextPid := 4 }

/-- A tree whose root is a leaf holding the single key 5. -/
def c5tree : BTree :=
  { root := 1,
    store := [(1, .leaf { entries := [(5, 7)], maxSize := 5, parent := -1, pageId := 1, next := -1 })],
    leafMax := 5, internalMax := 3, nextPid := 2 }

/-- A tree state whose middle leaf is not sorted (`[(9,90), (1,10),
(2,20)]` under the parent interval `[5, 100)`): a legal `Store`, but not
one satisfying the ordering invariants.  Key 6 is nowhere in it. -/
def c6tree : BTree :=
  { root := 2,
    store := [
      (2, .internal { entries := [(0, 10), (5, 11), (100, 12)], maxSize := 5, parent := -1, pageId := 2 }),
      (10, .leaf { entries := [(1, 1)], maxSize := 4, parent := 2, pageId := 10, next := 11 }),
      (11, .leaf { entries := [(9, 90), (1, 10), (2, 20)], maxSize := 4, parent := 2, pageId := 11, next := 12 }),
      (12, .leaf { entries := [(200, 1)], maxSize := 4, parent := 2, pageId := 12, next := -1 }) ],
    leafMax := 4, internalMax := 5, nextPid := 13 }

/-- A one-leaf tree holding keys 1 and 3; key 2 is absent but smaller
than key 3. -/
def c8tree : BTree :=
  { root := 1,
    store := [(1, .leaf { entries := [(1, 10), (3, 30)], maxSize := 5, parent := -1, pageId := 1, next := -1 })],
    leafMax := 5, internalMax := 3, nextPid := 2 }

/-- The single leaf of `c8tree`. -/
def c8leaf : LeafPage :=
  { entries := [(1, 10), (3, 30)], maxSize := 5, parent := -1, pageId := 1, next := -1 }

/-- A leaf holding the single key 5; inserting key 7 probes the slot at
index 1 = size. -/
def c10leaf : LeafPage :=
  { entries := [(5, 50)], maxSize := 5, parent := -1, pageId := 1, next := -1 }

/-- A replacer state: young list `[frame 1 (pinned), frame 3 (evictable)]`
newest first, mature list `[frame 2 (evictable)]`. -/
def c9repl : Replacer :=
  { young := [ { history := [5], fid := 1, evictable := false, cnt := 1, kTs := INF },
               { history := [3], fid := 3, evictable := true, cnt := 1, kTs := INF } ],
    mature := [ { history := [4, 2], fid := 2, evictable := true, cnt := 2, kTs := 2 } ],
    currentTs := 5, currSize := 2, replacerSize := 3, k := 2 }

/-! ### Claim theorems -/

/-- C1.  The claim states that a successful `fetch_page(p)` of a
non-resident page returns the page pinned with pin count 1 and recorded
in `page_table`, so that every later `fetch_page(p)` before eviction or
deletion returns the same frame.  On the code this fails in the
free-list branch: fetching page 5 twice from a fresh two-frame pool
succeeds both times but loads two different frames (0 then 1), the first
fetch leaves `page_table_` empty and the frame's pin count at 0.  The
branch reads the bytes from disk but omits both the `page_table_` insert
and the pin. -/
theorem c1_fetchPage_freeListBranch_bug :
    ((c1pool.fetchPage 5).map (fun p => p.1) = some 0)
    ∧ ((c1pool.fetchPage 5).map (fun p => p.2.pageTable) = some [])
    ∧ ((c1pool.fetchPage 5).map (fun p => (p.2.pages.getD 0 BPPage.init).pinCount) = some 0)
    ∧ (((c1pool.fetchPage 5).bind (fun p => p.2.fetchPage 5)).map (fun p => p.1) = some 1) := by
  refine ⟨rfl, rfl, rfl, rfl⟩

/-- C2.  The claim states that `lock_row(txn, S, oid, rid)` is granted
only when the transaction holds a table lock on `oid` in one of IS, S,
IX, SIX, X, and that a missing table lock aborts with
`TABLE_LOCK_NOT_PRESENT`.  On the code,
`EasureTableLockBeforeRowLock` checks table locks only for X row
requests: a transaction holding no lock whatsoever passes the check and
is granted the S row lock. -/
theorem c2_lockRow_shared_without_table_lock :
    (easureTableLockBeforeRowLock freshTxn .shared 1 = (freshTxn, none))
    ∧ (lockRow freshTxn .shared 1 7 { reqs := [], upgrading := none } =
        .granted { freshTxn with sRow := [(1, 7)] }
          { reqs := [{ txnId := 0, mode := .shared, granted := true }], upgrading := none }) := by
  refine ⟨rfl, rfl⟩

/-- C3.  The claim states that redistribution from a right sibling moves
the sibling's first entry to the end of the node, preserving the
key-value multiset and order of both nodes, with the parent separator
set to the right node's new first key.  On the code the shift loop of
the leaf `MoveFirstToEndOf` copies forward (`array_[i+1] = array_[i]`),
so removing key 1 from `c3tree` leaves the right sibling as
`[(3,30), (3,30)]`: entries `(4,40)` and `(5,50)` are destroyed, `(3,30)`
is duplicated, the parent separator stays 3 instead of the moved-out 4,
and key 4 can no longer be found. -/
theorem c3_moveFirstToEndOf_corrupts_donor :
    ((c3tree.remove 5 1).bind (fun t1 => storeGet t1.store 3) =
      some (.leaf { entries := [(3, 30), (3, 30)], maxSize := 4, parent := 1, pageId := 3, next := -1 }))
    ∧ ((c3tree.remove 5 1).bind (fun t1 => t1.getValue 5 4) = some (false, [])) := by
  refine ⟨rfl, rfl⟩

/-- C7.  The claim states that `unlock_row` with `force = true` skips the
isolation-based state transition while performing the same queue removal
and lock-set update.  On the code the `force` parameter is never
consulted: releasing the S row lock of a `GROWING` `REPEATABLE_READ`
transaction with `force = true` still moves it to `SHRINKING`, and the
result of any call is identical for both `force` values. -/
theorem c7_unlockRow_force_ignored :
    (unlockRow c7txn 1 7 true (some c7queue) =
      .ok { c7txn with state := .shrinking, sRow := [] } { reqs := [], upgrading := none })
    ∧ (∀ (txn : Txn) (oid rid : Nat) (b : Bool) (q : Option LockQueue),
        unlockRow txn oid rid b q = unlockRow txn oid rid true q) := by
  exact ⟨rfl, fun _ _ _ _ _ => rfl⟩

/-- C4, counterexample.  The claim states the victim written by
`HasCycle` is always the largest transaction id on the detected cycle.
The graph 0 → 2 → 1 → 0 is a cycle containing transaction 2, yet
`HasCycle` selects 1: the depth-first search (vertices ascending,
neighbours sorted) reaches the visited vertex 0 while standing at
node 1 and writes the current node, not the cycle's maximum. -/
theorem c4_counterexample :
    (2 ∈ wfAdj cycleGraphA 0 ∧ 1 ∈ wfAdj cycleGraphA 2 ∧ 0 ∈ wfAdj cycleGraphA 1)
    ∧ hasCycle cycleGraphA = some 1
    ∧ hasCycle cycleGraphA ≠ some 2 := by
  refine ⟨⟨by decide, by decide, by decide⟩, rfl, by decide⟩

/-- C4, amended.  `HasCycle` selects the transaction at which the
depth-first search — vertices taken in ascending id order, adjacency
sorted ascending — first meets an already-visited transaction.  When the
cycle is traversed in ascending id order this is its youngest (largest
id) member, as on 0 → 1 → 2 → 0 where 2 is selected; in general it need
not be, as on 0 → 2 → 1 → 0 where 1 is selected although 2 is on the
cycle. -/
theorem c4_victim_is_dfs_closure_node :
    hasCycle cycleGraphB = some 2 ∧ hasCycle cycleGraphA = some 1 := by
  refine ⟨rfl, rfl⟩

/-- C5, counterexample.  The claim states that removing the last key of
a tree whose root is a leaf sets the header's `root_page_id` to the
INVALID sentinel so that `IsEmpty()` becomes true.  On the code,
`CoalesceOrRedistribute` returns without touching the header whenever
the root is a leaf: removing key 5 from the one-entry root leaf of
`c5tree` leaves `root_page_id = 1` and `IsEmpty() = false`. -/
theorem c5_counterexample :
    (c5tree.remove 5 5).map (fun t1 => (t1.root, t1.isEmpty)) = some (1, false) := by
  rfl

/-- C6, counterexample.  The claim quantifies over every tree state.  On
the ill-ordered (but well-typed) state `c6tree`, inserting the absent
key 6 returns `true` yet splits the unsorted leaf around the stray
separator 1, and `get_value(6)` then descends to the wrong leaf and
returns no value at all. -/
theorem c6_counterexample :
    ((c6tree.insert 6 6 60).map (fun p => p.1) = some true)
    ∧ ((c6tree.insert 6 6 60).bind (fun p => p.2.getValue 6 6) = some (false, [])) := by
  refine ⟨rfl, rfl⟩

/-- C8, counterexample.  The claim states `begin(key)` positions at the
first entry whose key is ≥ the probe also for absent keys.  On the code
the constructor asserts the probe is exactly present: on the leaf
`[(1,10), (3,30)]` the probe 2 lands at index 1 whose entry `(3,30)` is
the first entry ≥ 2, but the assertion `comparator(key, KeyAt(index)) == 0`
fails and no iterator is produced. -/
theorem c8_counterexample :
    (beginKey c8tree 5 2 = none)
    ∧ (∃ l : LeafPage, storeGet c8tree.store 1 = some (.leaf l) ∧
        l.keyIndex 2 = 1 ∧ l.entries.getD 1 (0, 0) = (3, 30)) := by
  refine ⟨rfl, ⟨_, rfl, rfl, rfl⟩⟩

/-- C10, counterexample.  The final clause of the claim states that
whether an insert whose key exceeds every stored key is misclassified as
a duplicate depends on the residual bytes of the unused slot.  It does
not: inserting key 7 into the one-entry leaf `c10leaf` probes the
out-of-range slot at index 1 (the `Option` read is `none`), and the
outcome is the same successful insert whether the residual key equals
the probe (7) or not (8) — the conjunct `index < GetSize()` rejects the
duplicate branch regardless. -/
theorem c10_counterexample :
    (c10leaf.keyIndex 7 = 1)
    ∧ (c10leaf.keyAtQ (c10leaf.keyIndex 7) = none)
    ∧ (c10leaf.insertR 7 70 7 = c10leaf.insertR 7 70 8)
    ∧ ((c10leaf.insertR 7 70 7).2.entries = [(5, 50), (7, 70)]) := by
  refine ⟨rfl, rfl, rfl, rfl⟩

/-! ### Supporting lemmas for the eviction theorem -/

theorem findEvict_evictable {l : List LRUKNode} :
    ∀ {n : LRUKNode} {rest : List LRUKNode},
      findEvict l = some (n, rest) → n.evictable = true := by
  induction l with
  | nil => intro n rest h; simp [findEvict] at h
  | cons m ms ih =>
    intro n rest h
    by_cases hm : m.evictable
    · simp only [findEvict, hm, if_true, Option.some.injEq, Prod.mk.injEq] at h
      exact h.1 ▸ hm
    · simp only [findEvict, hm, if_false, Bool.false_eq_true] at h
      cases hfe : findEvict ms with
      | none => rw [hfe] at h; exact absurd h (by simp)
      | some p =>
        rw [hfe] at h
        obtain ⟨m2, rest2⟩ := p
        simp only [Option.some.injEq, Prod.mk.injEq] at h
        exact h.1 ▸ ih hfe

theorem findEvict_append_some {l : List LRUKNode} (l2 : List LRUKNode) :
    ∀ {n : LRUKNode} {rest : List LRUKNode},
      findEvict l = some (n, rest) → findEvict (l ++ l2) = some (n, rest ++ l2) := by
  induction l with
  | nil => intro n rest h; simp [findEvict] at h
  | cons m ms ih =>
    intro n rest h
    by_cases hm : m.evictable
    · simp only [findEvict, hm, if_true, Option.some.injEq, Prod.mk.injEq] at h
      obtain ⟨rfl, rfl⟩ := h
      simp [findEvict, hm]
    · simp only [findEvict, hm, if_false, Bool.false_eq_true] at h
      cases hfe : findEvict ms with
      | none => rw [hfe] at h; exact absurd h (by simp)
      | some p =>
        rw [hfe] at h
        obtain ⟨m2, rest2⟩ := p
        simp only [Option.some.injEq, Prod.mk.injEq] at h
        obtain ⟨rfl, rfl⟩ := h
        have := ih hfe
        simp [findEvict, hm, List.append_eq, this]

theorem findEvict_append_none {l : List LRUKNode} (l2 : List LRUKNode)
    (h : findEvict l = none) :
    findEvict (l ++ l2) = (findEvict l2).map (fun p => (p.1, l ++ p.2)) := by
  induction l with
  | nil =>
    simp only [List.nil_append]
    cases h2 : findEvict l2 with
    | none => simp
    | some p => simp
  | cons m ms ih =>
    by_cases hm : m.evictable
    · simp [findEvict, hm] at h
    · simp only [findEvict, hm, if_false, Bool.false_eq_true] at h
      cases hfe : findEvict ms with
      | none =>
        simp only [List.cons_append, findEvict, hm, if_false, Bool.false_eq_true,
          List.append_eq]
        rw [ih hfe]
        cases h2 : findEvict l2 with
        | none => simp
        | some p => simp
      | some p => rw [hfe] at h; exact absurd h (by simp)

/-- C9.  For every replacer state, `Evict` scans the young list from its
oldest end first and then the mature list from its head — i.e. it picks
the first evictable node of `young.reverse ++ mature`; a non-evictable
node is never selected; on success the victim's tracking entry is
removed from the lists and the evictable count is decremented, with the
clock and configuration untouched; the result records whether a victim
was found (`none` exactly when no evictable node exists). -/
theorem c9_evict_spec (r : Replacer) :
    match findEvict (r.young.reverse ++ r.mature) with
    | none => r.evict = (none, r)
    | some (n, rest) =>
        n.evictable = true ∧ r.evict.1 = some n.fid ∧
        r.evict.2.young.reverse ++ r.evict.2.mature = rest ∧
        r.evict.2.currSize = r.currSize - 1 ∧
        r.evict.2.currentTs = r.currentTs ∧
        r.evict.2.replacerSize = r.replacerSize ∧ r.evict.2.k = r.k := by
  cases hy : findEvict r.young.reverse with
  | some p =>
    obtain ⟨n, rest⟩ := p
    rw [findEvict_append_some r.mature hy]
    refine ⟨findEvict_evictable hy, ?_, ?_, ?_, ?_, ?_, ?_⟩ <;>
      simp [Replacer.evict, hy, List.reverse_reverse]
  | none =>
    rw [findEvict_append_none r.mature hy]
    cases hm : findEvict r.mature with
    | some p =>
      obtain ⟨n, rest⟩ := p
      refine ⟨findEvict_evictable hm, ?_, ?_, ?_, ?_, ?_, ?_⟩ <;>
        simp [Replacer.evict, hy, hm]
    | none => simp [Replacer.evict, hy, hm]

/-- C9, witness: on `c9repl` the general theorem instantiates to the
young frame 3 being evicted ahead of the mature frame 2. -/
theorem c9_witness :
    match findEvict (c9repl.young.reverse ++ c9repl.mature) with
    | none => c9repl.evict = (none, c9repl)
    | some (n, rest) =>
        n.evictable = true ∧ c9repl.evict.1 = some n.fid ∧
        c9repl.evict.2.young.reverse ++ c9repl.evict.2.mature = rest ∧
        c9repl.evict.2.currSize = c9repl.currSize - 1 ∧
        c9repl.evict.2.currentTs = c9repl.currentTs ∧
        c9repl.evict.2.replacerSize = c9repl.replacerSize ∧
        c9repl.evict.2.k = c9repl.k :=
  c9_evict_spec c9repl

/-! ### Supporting lemmas for leaf insertion and the page store -/

theorem keyIndexGo_le_length (k : Int) (l : List (Int × Nat)) : keyIndexGo k l ≤ l.length := by
  induction l with
  | nil => simp [keyIndexGo]
  | cons e rest ih =>
    obtain ⟨key, v⟩ := e
    by_cases h : k ≤ key
    · simp [keyIndexGo, h]
    · simp only [keyIndexGo, if_neg h, List.length_cons]
      exact Nat.succ_le_succ ih

theorem keyIndexGo_eq_length {k : Int} {l : List (Int × Nat)} (h : ∀ e ∈ l, e.1 < k) :
    keyIndexGo k l = l.length := by
  induction l with
  | nil => rfl
  | cons e rest ih =>
    obtain ⟨key, v⟩ := e
    have hk : key < k := h (key, v) (by simp)
    simp only [keyIndexGo, if_neg (not_le.mpr hk), List.length_cons]
    rw [ih (fun e he => h e (List.mem_cons_of_mem _ he))]

theorem storeGet_storeSet_self (s : Store) (pid : Int) (pg : TreePage) :
    storeGet (storeSet s pid pg) pid = some pg := by
  induction s with
  | nil => simp [storeSet, storeGet]
  | cons e rest ih =>
    obtain ⟨q, old⟩ := e
    by_cases h : q = pid <;> simp [storeSet, storeGet, h, ih]

theorem storeGet_storeSet_ne (s : Store) {pid q : Int} (h : q ≠ pid) (pg : TreePage) :
    storeGet (storeSet s pid pg) q = storeGet s q := by
  induction s with
  | nil =>
    simp only [storeSet, storeGet]
    rw [if_neg (fun hq : pid = q => h hq.symm)]
  | cons e rest ih =>
    obtain ⟨q2, old⟩ := e
    by_cases h2 : q2 = pid
    · subst h2
      simp only [storeSet, if_pos rfl, storeGet]
      rw [if_neg (fun hq : q2 = q => h hq.symm), if_neg (fun hq : q2 = q => h hq.symm)]
    · simp only [storeSet, if_neg h2, storeGet]
      by_cases h3 : q2 = q
      · simp [h3]
      · simp [h3, ih]

/-- C10, amended.  In the leaf `Insert`, the duplicate test consults the
comparator on the key slot at `KeyIndex` before the bound test, so when
the new key exceeds every stored key the slot one past the valid range is
read (`KeyIndex` is the size there, and the total `Option` read returns
`none`); however, because of the conjunct `index < GetSize()`, the insert
is never misclassified as a duplicate: the result is the same for every
residual content of the unused slot. -/
theorem c10_insert_residual_independent (l : LeafPage) (k : Int) (v : Nat) (r1 r2 : Int) :
    (l.insertR k v r1 = l.insertR k v r2)
    ∧ ((∀ e ∈ l.entries, e.1 < k) →
        l.keyIndex k = l.entries.length ∧ l.keyAtQ (l.keyIndex k) = none) := by
  constructor
  · simp only [LeafPage.insertR]
    by_cases h : l.keyIndex k < l.entries.length
    · rw [List.getD_eq_getElem l.entries (r1, 0) h, List.getD_eq_getElem l.entries (r2, 0) h]
    · rw [if_neg (fun hc => h hc.2), if_neg (fun hc => h hc.2)]
  · intro hall
    have hlen : l.keyIndex k = l.entries.length := keyIndexGo_eq_length hall
    refine ⟨hlen, ?_⟩
    unfold LeafPage.keyAtQ
    rw [hlen, List.get?_eq_none.mpr (le_refl _)]
    rfl

/-- C10, witness: on the one-entry leaf `c10leaf` and probe 7 the insert
result is residual-independent and the probed slot is out of range. -/
theorem c10_witness :
    (c10leaf.insertR 7 70 7 = c10leaf.insertR 7 70 8)
    ∧ (c10leaf.keyIndex 7 = 1 ∧ c10leaf.keyAtQ 1 = none) := by
  have h := c10_insert_residual_independent c10leaf 7 70 7 8
  exact ⟨h.1, by simpa using h.2 (by decide)⟩

/-- Reduction of `BTree.remove` once the leaf navigation is known. -/
theorem remove_reduce (s : Store) (root lm im np : Int) (fuel : Nat) (k pid : Int)
    (L : LeafPage) (hroot : root ≠ -1)
    (hfind : findLeaf s k fuel root = some (pid, L)) :
    BTree.remove ⟨root, s, lm, im, np⟩ fuel k =
      (if L.entries.length ≤ L.keyIndex k ∨ (L.entries.getD (L.keyIndex k) (k + 1, 0)).1 ≠ k
       then some ⟨root, s, lm, im, np⟩
       else
         if pageMinSize (L.removeRecord k).2.maxSize ≤ (((L.removeRecord k).1 : Nat) : Int)
         then some ⟨root, storeSet s pid (.leaf (L.removeRecord k).2), lm, im, np⟩
         else coalesceOrRedistribute fuel
                ⟨root, storeSet s pid (.leaf (L.removeRecord k).2), lm, im, np⟩ pid) := by
  simp [BTree.remove, hroot, hfind]

/-- `CoalesceOrRedistribute` on a root leaf leaves the tree unchanged. -/
theorem cor_root_leaf (fuel : Nat) (t : BTree) (pid : Int) (L1 : LeafPage)
    (hget : storeGet t.store pid = some (.leaf L1)) (hpar : L1.parent = -1) :
    coalesceOrRedistribute (fuel + 1) t pid = some t := by
  simp [coalesceOrRedistribute, hget, TreePage.parentOf, hpar, TreePage.isLeafPage]

/-- C5, amended.  Removing a key from a tree whose root page is a leaf
(its parent pointer the INVALID sentinel) leaves the header untouched:
whether the key was present or not, and in particular after removing the
last remaining key, `root_page_id` still names the (now possibly empty)
leaf, and `IsEmpty()` remains false — `CoalesceOrRedistribute` resets the
header only for internal roots of size 1 and leaves a root leaf in
place. -/
theorem c5_root_leaf_remove_keeps_header (s : Store) (root lm im np : Int) (fuel : Nat)
    (k : Int) (L : LeafPage)
    (hroot : root ≠ -1)
    (hget : storeGet s root = some (.leaf L))
    (hpar : L.parent = -1) :
    ∃ t', BTree.remove ⟨root, s, lm, im, np⟩ (fuel + 1) k = some t' ∧
      t'.root = root ∧ t'.isEmpty = false := by
  have hfind : findLeaf s k (fuel + 1) root = some (root, L) := by
    simp [findLeaf, hget]
  have hempty : ∀ st : Store, (⟨root, st, lm, im, np⟩ : BTree).isEmpty = false := by
    intro st
    simp [BTree.isEmpty]
    exact hroot
  rw [remove_reduce s root lm im np (fuel + 1) k root L hroot hfind]
  by_cases hmiss : L.entries.length ≤ L.keyIndex k ∨
      (L.entries.getD (L.keyIndex k) (k + 1, 0)).1 ≠ k
  · rw [if_pos hmiss]
    exact ⟨_, rfl, rfl, hempty s⟩
  · rw [if_neg hmiss]
    by_cases hsz : pageMinSize (L.removeRecord k).2.maxSize ≤ (((L.removeRecord k).1 : Nat) : Int)
    · rw [if_pos hsz]
      exact ⟨_, rfl, rfl, hempty _⟩
    · rw [if_neg hsz]
      have hpar1 : (L.removeRecord k).2.parent = -1 := by
        simp [LeafPage.removeRecord, hpar]
      rw [cor_root_leaf fuel _ root (L.removeRecord k).2
        (storeGet_storeSet_self s root _) hpar1]
      exact ⟨_, rfl, rfl, hempty _⟩

/-- C5, amended claim witness: the concrete one-key root leaf of
`c5tree`. -/
theorem c5_witness :
    ∃ t', BTree.remove ⟨1, c5tree.store, 5, 3, 2⟩ 5 5 = some t' ∧
      t'.root = 1 ∧ t'.isEmpty = false := by
  refine c5_root_leaf_remove_keeps_header c5tree.store 1 5 3 2 4 5
    { entries := [(5, 7)], maxSize := 5, parent := -1, pageId := 1, next := -1 }
    (by decide) (by rfl) rfl

/-! ### Supporting lemmas for the insert round trip -/

theorem findLeaf_storeGet {s : Store} {k : Int} :
    ∀ {fuel : Nat} {root pid : Int} {L : LeafPage},
      findLeaf s k fuel root = some (pid, L) → storeGet s pid = some (.leaf L) := by
  intro fuel
  induction fuel with
  | zero => intro root pid L h; simp [findLeaf] at h
  | succ f ih =>
    intro root pid L h
    simp only [findLeaf] at h
    cases hg : storeGet s root with
    | none => rw [hg] at h; exact absurd h (by simp)
    | some pg =>
      rw [hg] at h
      cases pg with
      | leaf l =>
        simp only [Option.some.injEq, Prod.mk.injEq] at h
        rw [← h.1, hg, h.2]
      | internal n => exact ih h

theorem findLeaf_storeSet_leaf {s : Store} {k : Int} (L1 : LeafPage) :
    ∀ {fuel : Nat} {root pid : Int} {L : LeafPage},
      findLeaf s k fuel root = some (pid, L) →
      findLeaf (storeSet s pid (.leaf L1)) k fuel root = some (pid, L1) := by
  intro fuel
  induction fuel with
  | zero => intro root pid L h; simp [findLeaf] at h
  | succ f ih =>
    intro root pid L h
    simp only [findLeaf] at h ⊢
    cases hg : storeGet s root with
    | none => rw [hg] at h; exact absurd h (by simp)
    | some pg =>
      rw [hg] at h
      cases pg with
      | leaf l =>
        simp only [Option.some.injEq, Prod.mk.injEq] at h
        rw [← h.1, storeGet_storeSet_self]
      | internal n =>
        have hpidleaf := findLeaf_storeGet h
        have hne : root ≠ pid := by
          intro he
          rw [he, hpidleaf] at hg
          exact absurd hg.symm (by simp)
        rw [storeGet_storeSet_ne s hne, hg]
        exact ih h

theorem keyIndexGo_take_lt (k : Int) (l : List (Int × Nat)) :
    ∀ e ∈ l.take (keyIndexGo k l), e.1 < k := by
  induction l with
  | nil => simp
  | cons x rest ih =>
    obtain ⟨key, v⟩ := x
    by_cases h : k ≤ key
    · simp [keyIndexGo, h]
    · simp only [keyIndexGo, if_neg h, List.take_succ_cons, List.mem_cons]
      rintro e (rfl | he)
      · exact not_le.mp h
      · exact ih e he

theorem keyIndexGo_append {k : Int} {l1 : List (Int × Nat)} (v : Nat) (l2 : List (Int × Nat))
    (h : ∀ e ∈ l1, e.1 < k) : keyIndexGo k (l1 ++ (k, v) :: l2) = l1.length := by
  induction l1 with
  | nil => simp [keyIndexGo]
  | cons x rest ih =>
    obtain ⟨key, w⟩ := x
    have hk : key < k := h (key, w) (by simp)
    simp only [List.cons_append, keyIndexGo, if_neg (not_le.mpr hk), List.length_cons]
    rw [show List.append rest ((k, v) :: l2) = rest ++ (k, v) :: l2 from rfl]
    rw [ih (fun e he => h e (List.mem_cons_of_mem _ he))]

theorem collectMatches_append (k : Int) (l1 l2 : List (Int × Nat)) :
    collectMatches k (l1 ++ l2) = collectMatches k l1 ++ collectMatches k l2 := by
  induction l1 with
  | nil => rfl
  | cons x rest ih =>
    obtain ⟨key, v⟩ := x
    by_cases h : key = k <;> simp [collectMatches, h, ih]

theorem collectMatches_nil {k : Int} {l : List (Int × Nat)} (h : ∀ e ∈ l, e.1 ≠ k) :
    collectMatches k l = [] := by
  induction l with
  | nil => rfl
  | cons x rest ih =>
    obtain ⟨key, v⟩ := x
    have : key ≠ k := h (key, v) (by simp)
    simp only [collectMatches, if_neg this]
    exact ih fun e he => h e (List.mem_cons_of_mem _ he)

theorem getD_insertAt (x d : Int × Nat) :
    ∀ (p : Nat) (es : List (Int × Nat)), p ≤ es.length →
      (es.take p ++ x :: es.drop p).getD p d = x := by
  intro p
  induction p with
  | zero => intro es h; simp
  | succ p ih =>
    intro es h
    match es with
    | [] => exact absurd h (by simp)
    | e :: rest =>
      simp only [List.take_succ_cons, List.drop_succ_cons, List.cons_append,
        List.getD_cons_succ]
      exact ih rest (by simpa using h)

theorem insertR_not_mem {l : LeafPage} {k : Int} (v : Nat) (res : Int)
    (habs : ∀ e ∈ l.entries, e.1 ≠ k) :
    l.insertR k v res =
      (l.entries.length + 1,
       { l with entries :=
          l.entries.take (l.keyIndex k) ++ (k, v) :: l.entries.drop (l.keyIndex k) }) := by
  simp only [LeafPage.insertR]
  have hnotdup : ¬((l.entries.getD (l.keyIndex k) (res, 0)).1 = k ∧
      l.keyIndex k < l.entries.length) := by
    rintro ⟨heq, hlt⟩
    have hmem : l.entries.getD (l.keyIndex k) (res, 0) ∈ l.entries := by
      rw [List.getD_eq_getElem _ _ hlt]
      exact List.getElem_mem hlt
    exact habs _ hmem heq
  rw [if_neg hnotdup]
  have hlen : (l.entries.take (l.keyIndex k) ++ (k, v) :: l.entries.drop (l.keyIndex k)).length =
      l.entries.length + 1 := by
    have := keyIndexGo_le_length k l.entries
    simp only [List.length_append, List.length_take, List.length_cons, List.length_drop]
    omega
  rw [hlen]

/-- Reduction of `BTree.insert` once the leaf navigation is known. -/
theorem insert_reduce (s : Store) (root lm im np : Int) (fuel : Nat) (k : Int) (v : Nat)
    (pid : Int) (L : LeafPage) (hroot : root ≠ -1)
    (hfind : findLeaf s k fuel root = some (pid, L)) :
    BTree.insert ⟨root, s, lm, im, np⟩ fuel k v =
      (if (L.insertR k v 0).1 = L.entries.length then some (false, ⟨root, s, lm, im, np⟩)
       else if ((((L.insertR k v 0).1 : Nat)) : Int) < lm - 1 then
         some (true, ⟨root, storeSet s pid (.leaf (L.insertR k v 0).2), lm, im, np⟩)
       else
         (splitLeaf ⟨root, storeSet s pid (.leaf (L.insertR k v 0).2), lm, im, np⟩ pid).bind
           fun a => (insertIntoParent a.1 fuel pid ((a.2.entries.headD (0, 0)).1) a.2.pageId).bind
             fun t3 => some (true, t3)) := by
  simp [BTree.insert, insertIntoLeaf, hroot, hfind]

/-- C6, amended.  For every tree state, key `k` absent from the leaf
that navigation reaches, and an insert that does not overflow the leaf
(the resulting size stays below `leaf_max − 1`): `insert(k, v)` succeeds,
rewriting exactly that leaf with `(k, v)` placed at `KeyIndex`;
`get_value(k)` afterwards returns exactly `{v}`; and a second
`insert(k, v)` returns `false` and leaves the entire tree state
unchanged.  (The split case needs the ordering invariants, as the
counterexample shows.) -/
theorem c6_insert_get_roundtrip_no_split (s : Store) (root lm im np : Int) (fuel : Nat)
    (k : Int) (v : Nat) (pid : Int) (L : LeafPage)
    (hroot : root ≠ -1)
    (hfind : findLeaf s k fuel root = some (pid, L))
    (habs : ∀ e ∈ L.entries, e.1 ≠ k)
    (hsize : ((L.entries.length : Nat) : Int) + 1 < lm - 1) :
    ∃ L1 : LeafPage,
      L1 = { L with entries :=
              L.entries.take (L.keyIndex k) ++ (k, v) :: L.entries.drop (L.keyIndex k) } ∧
      BTree.insert ⟨root, s, lm, im, np⟩ fuel k v =
        some (true, ⟨root, storeSet s pid (.leaf L1), lm, im, np⟩) ∧
      BTree.getValue ⟨root, storeSet s pid (.leaf L1), lm, im, np⟩ fuel k =
        some (true, [v]) ∧
      BTree.insert ⟨root, storeSet s pid (.leaf L1), lm, im, np⟩ fuel k v =
        some (false, ⟨root, storeSet s pid (.leaf L1), lm, im, np⟩) := by
  have hple : L.keyIndex k ≤ L.entries.length := keyIndexGo_le_length k L.entries
  set L1 : LeafPage :=
    { L with entries :=
        L.entries.take (L.keyIndex k) ++ (k, v) :: L.entries.drop (L.keyIndex k) } with hL1
  have hins := insertR_not_mem v 0 habs
  have hlen1 : L1.entries.length = L.entries.length + 1 := by
    simp only [hL1, List.length_append, List.length_take, List.length_cons, List.length_drop]
    omega
  have hsize1 : (((L.entries.length + 1 : Nat)) : Int) < lm - 1 := by
    push_cast
    linarith
  refine ⟨L1, rfl, ?_, ?_, ?_⟩
  · rw [insert_reduce s root lm im np fuel k v pid L hroot hfind, hins]
    rw [if_neg (by omega : ¬(L.entries.length + 1 = L.entries.length))]
    rw [if_pos hsize1]
  · have hfind1 := findLeaf_storeSet_leaf L1 hfind
    have hcoll : collectMatches k L1.entries = [v] := by
      rw [hL1]
      show collectMatches k
        (L.entries.take (L.keyIndex k) ++ (k, v) :: L.entries.drop (L.keyIndex k)) = [v]
      rw [collectMatches_append]
      rw [collectMatches_nil (fun e he => habs e (List.take_subset _ _ he))]
      simp only [collectMatches, if_pos rfl, List.nil_append]
      rw [collectMatches_nil (fun e he => habs e (List.drop_subset _ _ he))]
      simp
    simp [BTree.getValue, hroot, hfind1, hcoll]
  · have hfind1 := findLeaf_storeSet_leaf L1 hfind
    have hkidx1 : L1.keyIndex k = L.keyIndex k := by
      show keyIndexGo k
        (L.entries.take (keyIndexGo k L.entries) ++
          (k, v) :: L.entries.drop (keyIndexGo k L.entries)) = keyIndexGo k L.entries
      rw [keyIndexGo_append v _ (keyIndexGo_take_lt k L.entries)]
      rw [List.length_take]
      exact Nat.min_eq_left hple
    have hgetd : L1.entries.getD (L.keyIndex k) ((0 : Int), (0 : Nat)) = (k, v) := by
      rw [hL1]
      exact getD_insertAt (k, v) (0, 0) (L.keyIndex k) L.entries hple
    have hdup : L1.insertR k v 0 = (L1.entries.length, L1) := by
      have hcond : (L1.entries.getD (L1.keyIndex k) ((0 : Int), (0 : Nat))).1 = k ∧
          L1.keyIndex k < L1.entries.length := by
        rw [hkidx1, hgetd]
        exact ⟨rfl, by rw [hlen1]; omega⟩
      simp only [LeafPage.insertR]
      rw [if_pos hcond]
    rw [insert_reduce (storeSet s pid (.leaf L1)) root lm im np fuel k v pid L1 hroot hfind1,
      hdup]
    rw [if_pos rfl]

/-- C6, amended claim witness: inserting the absent key 2 into the
one-leaf tree of `c8tree` (no split: 3 < 4). -/
theorem c6_witness :
    ∃ L1 : LeafPage,
      L1 = { entries := [(1, 10), (2, 99), (3, 30)], maxSize := 5, parent := -1,
             pageId := 1, next := -1 } ∧
      BTree.insert ⟨1, c8tree.store, 5, 3, 2⟩ 1 2 99 =
        some (true, ⟨1, storeSet c8tree.store 1 (.leaf L1), 5, 3, 2⟩) ∧
      BTree.getValue ⟨1, storeSet c8tree.store 1 (.leaf L1), 5, 3, 2⟩ 1 2 =
        some (true, [99]) ∧
      BTree.insert ⟨1, storeSet c8tree.store 1 (.leaf L1), 5, 3, 2⟩ 1 2 99 =
        some (false, ⟨1, storeSet c8tree.store 1 (.leaf L1), 5, 3, 2⟩) := by
  have h := c6_insert_get_roundtrip_no_split c8tree.store 1 5 3 2 1 2 99 1
    { entries := [(1, 10), (3, 30)], maxSize := 5, parent := -1, pageId := 1, next := -1 }
    (by decide) (by rfl) (by decide) (by decide)
  simpa using h

/-! ### Supporting material for the iterator theorem -/

theorem leafChain_nil_next {s : Store} {p : Int} (h : LeafChain s p []) : p = -1 := by
  cases h
  rfl

theorem leafChain_cons_inv {s : Store} {p : Int} {M : LeafPage} {rest : List LeafPage}
    (h : LeafChain s p (M :: rest)) :
    p ≠ -1 ∧ storeGet s p = some (.leaf M) ∧ LeafChain s M.next rest := by
  cases h with
  | cons h1 h2 h3 => exact ⟨h1, h2, h3⟩

theorem iterCollect_end (s : Store) (fuel : Nat) : iterCollect s fuel iterEnd = [] := by
  cases fuel <;> simp [iterCollect, iterEnd]

theorem iterCollect_chain (s : Store) :
    ∀ (fuel : Nat) (pid : Int) (L : LeafPage) (rest : List LeafPage) (i : Nat),
      LeafChain s pid (L :: rest) →
      (∀ M ∈ rest, M.entries ≠ []) →
      i < L.entries.length →
      L.entries.length - i + (rest.map (fun M => M.entries.length)).sum ≤ fuel →
      iterCollect s fuel ⟨some (pid, L), i⟩ =
        L.entries.drop i ++ (rest.map (fun M => M.entries)).join := by
  intro fuel
  induction fuel with
  | zero =>
    intro pid L rest i hch hne hi hf
    exact absurd hf (by omega)
  | succ f ih =>
    intro pid L rest i hch hne hi hf
    have hdrop : L.entries.drop i = L.entries[i] :: L.entries.drop (i + 1) :=
      List.drop_eq_getElem_cons hi
    have hgd : L.entries.getD i (0, 0) = L.entries[i] := List.getD_eq_getElem _ _ hi
    by_cases hlast : L.entries.length ≤ i + 1
    · have hieq : i + 1 = L.entries.length := by omega
      cases rest with
      | nil =>
        have hnext : L.next = -1 := leafChain_nil_next (leafChain_cons_inv hch).2.2
        have hstep : iterNext s ⟨some (pid, L), i⟩ = some iterEnd := by
          simp [iterNext, hlast, hnext]
        simp only [iterCollect, hstep]
        rw [iterCollect_end, hgd, hdrop]
        have : L.entries.drop (i + 1) = [] := by
          rw [List.drop_eq_nil_iff_le]
          omega
        simp [this]
      | cons M rest2 =>
        obtain ⟨hne2, hget2, hch2⟩ := leafChain_cons_inv (leafChain_cons_inv hch).2.2
        have hstep : iterNext s ⟨some (pid, L), i⟩ = some ⟨some (L.next, M), 0⟩ := by
          simp [iterNext, hlast, hne2, hget2]
        simp only [iterCollect, hstep]
        have hMne : M.entries ≠ [] := hne M (by simp)
        have hMlen : 0 < M.entries.length := List.length_pos.mpr hMne
        rw [ih L.next M rest2 0 (LeafChain.cons hne2 hget2 hch2)
          (fun N hN => hne N (List.mem_cons_of_mem _ hN)) hMlen (by simp at hf ⊢; omega)]
        rw [hgd, hdrop]
        have : L.entries.drop (i + 1) = [] := by
          rw [List.drop_eq_nil_iff_le]
          omega
        simp [this]
    · have hstep : iterNext s ⟨some (pid, L), i⟩ = some ⟨some (pid, L), i + 1⟩ := by
        simp [iterNext, hlast]
      simp only [iterCollect, hstep]
      rw [ih pid L rest (i + 1) hch hne (by omega) (by omega)]
      rw [hgd, ← List.cons_append, ← hdrop]

/-- C8, amended.  `begin(key)` descends exactly as `get_value` does; it
produces an iterator only when the probe key is exactly present at the
position `KeyIndex` reports (otherwise the constructor's assertion
fails), and that iterator stands on the probe key's entry in the leaf
that navigation reached.  From any in-range position, repeatedly
dereferencing and advancing with `++` visits the remaining entries of
the current leaf and then each linked leaf's entries in storage order —
ascending key order once the leaves are sorted and correctly linked —
until the null-leaf `end()` sentinel, which satisfies `IsEnd`. -/
theorem c8_beginKey_exact_and_iteration :
    (∀ (t : BTree) (fuel : Nat) (k pid : Int) (L : LeafPage) (it : IndexIterator),
        findLeaf t.store k fuel t.root = some (pid, L) →
        ((beginKey t fuel k = some it →
            it = ⟨some (pid, L), L.keyIndex k⟩ ∧
            (L.entries.getD (L.keyIndex k) (k + 1, 0)).1 = k) ∧
          ((L.entries.getD (L.keyIndex k) (k + 1, 0)).1 ≠ k → beginKey t fuel k = none)))
    ∧ (∀ (s : Store) (pid : Int) (L : LeafPage) (rest : List LeafPage) (i fuel : Nat),
        LeafChain s pid (L :: rest) →
        (∀ M ∈ rest, M.entries ≠ []) →
        i < L.entries.length →
        L.entries.length - i + (rest.map (fun M => M.entries.length)).sum ≤ fuel →
        iterCollect s fuel ⟨some (pid, L), i⟩ =
          L.entries.drop i ++ (rest.map (fun M => M.entries)).join)
    ∧ iterEnd.isEnd = true := by
  refine ⟨?_, ?_, rfl⟩
  · intro t fuel k pid L it hfind
    constructor
    · intro hsome
      rw [show beginKey t fuel k =
          (if L.keyIndex k < L.entries.length ∧
              (L.entries.getD (L.keyIndex k) (k + 1, 0)).1 = k
           then some ⟨some (pid, L), L.keyIndex k⟩ else none) from by
        simp [beginKey, hfind]] at hsome
      by_cases hc : L.keyIndex k < L.entries.length ∧
          (L.entries.getD (L.keyIndex k) (k + 1, 0)).1 = k
      · rw [if_pos hc] at hsome
        exact ⟨(Option.some.injEq _ _ ▸ hsome).symm ▸ rfl, hc.2⟩
      · rw [if_neg hc] at hsome
        exact absurd hsome (by simp)
    · intro hne
      have hc : ¬(L.keyIndex k < L.entries.length ∧
          (L.entries.getD (L.keyIndex k) (k + 1, 0)).1 = k) := fun hc => hne hc.2
      rw [show beginKey t fuel k =
          (if L.keyIndex k < L.entries.length ∧
              (L.entries.getD (L.keyIndex k) (k + 1, 0)).1 = k
           then some ⟨some (pid, L), L.keyIndex k⟩ else none) from by
        simp [beginKey, hfind]]
      rw [if_neg hc]
  · intro s pid L rest i fuel hch hne hi hf
    exact iterCollect_chain s fuel pid L rest i hch hne hi hf

/-- C8, amended claim witness: on `c8tree`, `begin(3)` stands on the
entry `(3, 30)` and iterating from it yields that entry before the
sentinel; the hypotheses are discharged at the concrete input. -/
theorem c8_witness :
    ((⟨some (1, c8leaf), 1⟩ : IndexIterator) = ⟨some (1, c8leaf), c8leaf.keyIndex 3⟩ ∧
      (c8leaf.entries.getD (c8leaf.keyIndex 3) (3 + 1, 0)).1 = 3)
    ∧ iterCollect c8tree.store 2 ⟨some (1, c8leaf), 1⟩ =
        c8leaf.entries.drop 1 ++ (([] : List LeafPage).map (fun M => M.entries)).join
    ∧ iterEnd.isEnd = true := by
  have h := c8_beginKey_exact_and_iteration
  refine ⟨(h.1 c8tree 1 3 1 c8leaf ⟨some (1, c8leaf), 1⟩ rfl).1 rfl, ?_, h.2.2⟩
  exact h.2.1 c8tree.store 1 c8leaf [] 1 2
    (LeafChain.cons (by decide) rfl LeafChain.nil) (by simp) (by decide) (by decide)

end BusTub
